import Mathlib

/-!
Verification of the medication-helper application (`src/app.py`).

The file embeds the local, deterministic logic of the program:

* `resolveTimes` — the time-slot resolution inside `generate_schedule`
  (app.py lines 82–99).  The source matches the Korean keywords
  아침 (morning → "08:00"), 점심 (lunch → "12:00"), 저녁 (evening → "18:00"),
  취침 / 자기 전 (bedtime / before sleep → "22:00") against the lowercased
  timing string, and falls back to the frequency substrings
  3회 ("3 times") and 2회 ("2 times").
* `generate_schedule` — the weekly schedule builder (lines 73–116).
  A Python dict keyed by date strings is embedded as an insertion-ordered
  association list keyed by abstract day numbers (`today + day`); within a
  seven-day window the formatted date strings are pairwise distinct, so the
  abstraction is faithful.
* `extractFenced` / `parsePayload` — the fenced-code-block stripping in
  `analyze_prescription` (lines 59–67), with Python `str.split` embedded by
  `pySplit` and `str.strip` by `pyStrip`.
* `registerHandler` — the medication-registration branch of the UI
  (lines 224–233): the parsed result mutates the stored medication list
  only when it is truthy and carries a `medications` key.

Strings are embedded as `List Char`. Machine-level concerns (the real
clock, the external model call, image handling) are outside the embedded
fragment; dates are abstracted to day numbers as described above.
-/

abbrev Str := List Char

/-- A medication record as parsed from the model response: a Python dict in
the source, so every field may be absent.  Only `name` is accessed with a
raising lookup (`med['name']`); the others go through `med.get`. -/
structure Med where
  name : Option Str
  dosage : Option Str
  frequency : Option Str
  timing : Option Str
  duration : Option Str
  warnings : Option Str
deriving DecidableEq, Repr

/-- One dose entry of the weekly schedule (app.py lines 109–114). -/
structure Entry where
  medication : Str
  time : Str
  dosage : Str
  taken : Bool
deriving DecidableEq, Repr

/-- The schedule dict: insertion-ordered association list from day number
to the day's entry list. -/
abbrev Sched := List (Nat × List Entry)

def kwMorning : Str := "아침".toList
def kwLunch : Str := "점심".toList
def kwEvening : Str := "저녁".toList
def kwBedtime : Str := "취침".toList
def kwBeforeSleep : Str := "자기 전".toList
def kw3x : Str := "3회".toList
def kw2x : Str := "2회".toList

def t0800 : Str := "08:00".toList
def t1200 : Str := "12:00".toList
def t1800 : Str := "18:00".toList
def t2200 : Str := "22:00".toList

/-- Default frequency `'1일 1회'` used by `med.get('frequency', '1일 1회')`
(app.py line 79). -/
def defaultFreq : Str := "1일 1회".toList

/-- The keyword matching of the time-slot resolver, app.py lines 82–90:
the `times` list collected from the timing keywords, in the fixed
morning → lunch → evening → bedtime order of the source.  Python's `in`
on strings is substring containment, embedded as `<:+:`. -/
def keywordTimes (timing : Str) : List Str :=
  (if kwMorning <:+: timing then [t0800] else []) ++
  (if kwLunch <:+: timing then [t1200] else []) ++
  (if kwEvening <:+: timing then [t1800] else []) ++
  (if kwBedtime <:+: timing ∨ kwBeforeSleep <:+: timing then [t2200] else [])

/-- Time-slot resolver, app.py lines 82–99.  Its `timing` argument is the
already-lowercased string produced at line 78 (`generate_schedule`
lowercases before matching; the keywords themselves are caseless Korean,
so keyword containment is unaffected by the lowercasing). -/
def resolveTimes (timing frequency : Str) : List Str :=
  if keywordTimes timing = [] then
    if kw3x <:+: frequency then [t0800, t1200, t1800]
    else if kw2x <:+: frequency then [t0800, t1800]
    else [t0800]
  else keywordTimes timing

def mkEntry (name dosage time : Str) : Entry :=
  { medication := name, time := time, dosage := dosage, taken := false }

/-- Membership test `date_str in schedule` (app.py line 105). -/
def hasKey (s : Sched) (k : Nat) : Bool := s.any (fun p => p.1 == k)

/-- Key creation `if date_str not in schedule: schedule[date_str] = []`
(lines 105–106). -/
def ensureKey (s : Sched) (k : Nat) : Sched :=
  if hasKey s k then s else s ++ [(k, [])]

/-- Appending `schedule[date_str].append(entry)` (lines 109–114); the key is unique in
the dict, so mapping over all pairs updates exactly that key. -/
def appendEntry (s : Sched) (k : Nat) (e : Entry) : Sched :=
  s.map (fun p => if p.1 == k then (p.1, p.2 ++ [e]) else p)

/-- The body of the `for day in range(7)` loop for one medication
(lines 101–114), at day key `k`. -/
def addDay (name dosage : Str) (times : List Str) (k : Nat) (s : Sched) : Sched :=
  times.foldl (fun s t => appendEntry s k (mkEntry name dosage t)) (ensureKey s k)

/-- Processing of one medication inside `generate_schedule` (lines 77–114).
`med['name']` raises `KeyError` when the key is absent; the raising lookup
is embedded as the `Option` bind, which aborts the whole computation just
as the uncaught exception does. -/
def addMed (today : Nat) (s : Sched) (med : Med) : Option Sched := do
  let timing := (med.timing.getD []).map Char.toLower
  let frequency := med.frequency.getD defaultFreq
  let times := resolveTimes timing frequency
  let name ← med.name
  let dosage := med.dosage.getD []
  return (List.range 7).foldl (fun s day => addDay name dosage times (today + day) s) s

/-- The builder `generate_schedule` (app.py lines 73–116).  `today` abstracts
`datetime.now()`'s date; day `d`'s date string is abstracted as
`today + d`. -/
def generate_schedule (today : Nat) (medications : List Med) : Option Sched :=
  medications.foldlM (addMed today) []

/-- The entries one medication contributes to each day of the schedule. -/
def entriesFor (med : Med) : List Entry :=
  (resolveTimes ((med.timing.getD []).map Char.toLower) (med.frequency.getD defaultFreq)).map
    (fun t => mkEntry (med.name.getD []) (med.dosage.getD []) t)

/-- The schedule value `generate_schedule` produces on a well-formed
medication list: no medications give an empty dict (the day loop sits
inside the medication loop); otherwise each of the seven days maps to the
concatenation, in list order, of each medication's slot entries. -/
def schedSpec (today : Nat) (meds : List Med) : Sched :=
  match meds with
  | [] => []
  | _ :: _ => (List.range 7).map (fun d => (today + d, meds.flatMap entriesFor))

/-- Dict lookup on the (optional) schedule. -/
def schedLookup (o : Option Sched) (k : Nat) : Option (List Entry) :=
  o.bind (fun s => (s.find? (fun p => p.1 == k)).map (fun p => p.2))

/-- Total number of entries in a schedule. -/
def totalEntries (s : Sched) : Nat := (s.map (fun p => p.2.length)).sum

-- sanity examples (concrete evaluation of the embedding)
example : resolveTimes ("아침, 저녁 식후".toList) ("1일 2회".toList) = [t0800, t1800] := by decide
example : resolveTimes [] ("1일 3회".toList) = [t0800, t1200, t1800] := by decide
example : resolveTimes [] defaultFreq = [t0800] := by decide
example : generate_schedule 0 [] = some [] := rfl

/-! ## Characterizing `generate_schedule` -/

/-- The shape the schedule dict has once at least one medication was
processed: the seven day keys in insertion order, day `d` carrying
`f d`. -/
def mstate (today : Nat) (f : Nat → List Entry) : Sched :=
  (List.range 7).map (fun d => (today + d, f d))

theorem mstate_congr {today : Nat} {f g : Nat → List Entry}
    (h : ∀ d < 7, f d = g d) : mstate today f = mstate today g := by
  unfold mstate
  exact List.map_congr_left (fun d hd => by rw [h d (List.mem_range.mp hd)])

theorem appendEntry_mstate (today : Nat) (f : Nat → List Entry) (j : Nat) (e : Entry) :
    appendEntry (mstate today f) (today + j) e
      = mstate today (fun d => if d = j then f d ++ [e] else f d) := by
  unfold appendEntry mstate
  rw [List.map_map]
  refine List.map_congr_left (fun d _ => ?_)
  by_cases hdj : d = j
  · subst hdj; simp
  · have : ¬ (today + d = today + j) := by omega
    simp [this, hdj]

theorem hasKey_mstate (today : Nat) (f : Nat → List Entry) {j : Nat} (hj : j < 7) :
    hasKey (mstate today f) (today + j) = true := by
  unfold hasKey mstate
  rw [List.any_eq_true]
  exact ⟨(today + j, f j), List.mem_map.mpr ⟨j, List.mem_range.mpr hj, rfl⟩, by simp⟩

theorem foldTimes_mstate (today : Nat) (j : Nat) (name dosage : Str) :
    ∀ (ts : List Str) (f : Nat → List Entry),
      ts.foldl (fun s t => appendEntry s (today + j) (mkEntry name dosage t)) (mstate today f)
        = mstate today (fun d => if d = j then f d ++ ts.map (mkEntry name dosage) else f d) := by
  intro ts
  induction ts with
  | nil =>
    intro f
    simp only [List.foldl_nil, List.map_nil]
    exact (mstate_congr (fun d _ => by by_cases hdj : d = j <;> simp [hdj])).symm
  | cons t ts ih =>
    intro f
    simp only [List.foldl_cons]
    rw [appendEntry_mstate, ih]
    refine mstate_congr (fun d _ => ?_)
    by_cases hdj : d = j <;> simp [hdj]

theorem addDay_mstate (today : Nat) (f : Nat → List Entry) {j : Nat} (hj : j < 7)
    (name dosage : Str) (ts : List Str) :
    addDay name dosage ts (today + j) (mstate today f)
      = mstate today (fun d => if d = j then f d ++ ts.map (mkEntry name dosage) else f d) := by
  unfold addDay ensureKey
  rw [hasKey_mstate today f hj]
  simp only [if_pos]
  exact foldTimes_mstate today j name dosage ts f

theorem dayLoop_mstate (today : Nat) (name dosage : Str) (ts : List Str)
    (E : List Entry) (hE : E = ts.map (mkEntry name dosage)) :
    ∀ (j : Nat), j ≤ 7 → ∀ (f : Nat → List Entry),
      (List.range j).foldl (fun s day => addDay name dosage ts (today + day) s) (mstate today f)
        = mstate today (fun d => if d < j then f d ++ E else f d) := by
  intro j
  induction j with
  | zero =>
    intro _ f
    simp only [List.range_zero, List.foldl_nil]
    exact (mstate_congr (fun d _ => by simp)).symm
  | succ j ih =>
    intro hj f
    rw [List.range_succ, List.foldl_append]
    rw [ih (by omega) f]
    simp only [List.foldl_cons, List.foldl_nil]
    rw [addDay_mstate today _ (by omega : j < 7) name dosage ts]
    refine mstate_congr (fun d _ => ?_)
    by_cases hdj : d = j
    · subst hdj; simp [hE]
    · by_cases hdlt : d < j
      · have : d < j + 1 := by omega
        simp [hdj, hdlt, this]
      · have : ¬ d < j + 1 := by omega
        simp [hdj, hdlt, this]

/-! Building the dict from empty (first medication). -/

theorem hasKey_build (today : Nat) (g : Nat → List Entry) (j : Nat) :
    hasKey ((List.range j).map (fun d => (today + d, g d))) (today + j) = false := by
  unfold hasKey
  rw [List.any_eq_false]
  intro p hp
  obtain ⟨d, hd, rfl⟩ := List.mem_map.mp hp
  have hdj : d < j := List.mem_range.mp hd
  have : ¬ (today + d = today + j) := by omega
  simp [this]

theorem appendEntry_last (s₁ : Sched) (k : Nat) (v : List Entry) (e : Entry)
    (h : hasKey s₁ k = false) :
    appendEntry (s₁ ++ [(k, v)]) k e = s₁ ++ [(k, v ++ [e])] := by
  unfold appendEntry
  rw [List.map_append]
  congr 1
  · have h' : ∀ p ∈ s₁, (p.1 == k) = false := by
      intro p hp
      have := (List.any_eq_false).mp h p hp
      simpa using this
    calc s₁.map (fun p => if p.1 == k then (p.1, p.2 ++ [e]) else p)
        = s₁.map id := List.map_congr_left (fun p hp => by rw [h' p hp]; simp)
      _ = s₁ := List.map_id s₁
  · simp

theorem foldTimes_last (k : Nat) (name dosage : Str) :
    ∀ (ts : List Str) (s₁ : Sched) (v : List Entry), hasKey s₁ k = false →
      ts.foldl (fun s t => appendEntry s k (mkEntry name dosage t)) (s₁ ++ [(k, v)])
        = s₁ ++ [(k, v ++ ts.map (mkEntry name dosage))] := by
  intro ts
  induction ts with
  | nil => intro s₁ v _; simp
  | cons t ts ih =>
    intro s₁ v h
    simp only [List.foldl_cons]
    rw [appendEntry_last s₁ k v _ h, ih s₁ _ h]
    simp

theorem addDay_new (name dosage : Str) (ts : List Str) (k : Nat) (s : Sched)
    (h : hasKey s k = false) :
    addDay name dosage ts k s = s ++ [(k, ts.map (mkEntry name dosage))] := by
  unfold addDay ensureKey
  rw [h]
  simp only [Bool.false_eq_true, if_neg, not_false_iff]
  rw [foldTimes_last k name dosage ts s [] h]
  simp

theorem dayLoop_build (today : Nat) (name dosage : Str) (ts : List Str) :
    ∀ (j : Nat),
      (List.range j).foldl (fun s day => addDay name dosage ts (today + day) s) []
        = (List.range j).map (fun d => (today + d, ts.map (mkEntry name dosage))) := by
  intro j
  induction j with
  | zero => simp
  | succ j ih =>
    rw [List.range_succ, List.foldl_append, ih]
    simp only [List.foldl_cons, List.foldl_nil]
    rw [addDay_new name dosage ts (today + j) _ (hasKey_build today _ j)]
    simp

/-! `addMed` and the full fold. -/

theorem addMed_name_none (today : Nat) (s : Sched) (med : Med) (h : med.name = none) :
    addMed today s med = none := by
  simp [addMed, h]

theorem addMed_empty (today : Nat) (med : Med) {nm : Str} (h : med.name = some nm) :
    addMed today [] med = some (mstate today (fun _ => entriesFor med)) := by
  unfold addMed
  rw [h]
  simp only [Option.bind_eq_bind, Option.some_bind]
  rw [dayLoop_build today nm (med.dosage.getD [])
    (resolveTimes ((med.timing.getD []).map Char.toLower) (med.frequency.getD defaultFreq)) 7]
  unfold mstate entriesFor
  rw [h]
  rfl

theorem addMed_mstate (today : Nat) (med : Med) {nm : Str} (h : med.name = some nm)
    (f : Nat → List Entry) :
    addMed today (mstate today f) med
      = some (mstate today (fun d => f d ++ entriesFor med)) := by
  unfold addMed
  rw [h]
  simp only [Option.bind_eq_bind, Option.some_bind]
  rw [dayLoop_mstate today nm (med.dosage.getD [])
    (resolveTimes ((med.timing.getD []).map Char.toLower) (med.frequency.getD defaultFreq))
    (entriesFor med) (by unfold entriesFor; rw [h]; simp) 7 (le_refl 7) f]
  show some _ = some _
  exact congrArg some (mstate_congr (fun d hd => by simp [hd]))

theorem foldMeds_mstate (today : Nat) :
    ∀ (meds : List Med) (f : Nat → List Entry), (∀ m ∈ meds, m.name.isSome) →
      List.foldlM (addMed today) (mstate today f) meds
        = some (mstate today (fun d => f d ++ meds.flatMap entriesFor)) := by
  intro meds
  induction meds with
  | nil =>
    intro f _
    simp only [List.foldlM_nil, List.flatMap_nil]
    exact congrArg some (mstate_congr (fun d _ => by simp))
  | cons m rest ih =>
    intro f h
    obtain ⟨nm, hnm⟩ := Option.isSome_iff_exists.mp (h m (List.mem_cons_self m rest))
    rw [List.foldlM_cons]
    rw [addMed_mstate today m hnm f]
    show List.foldlM (addMed today) _ rest = _
    rw [ih _ (fun m' hm' => h m' (List.mem_cons_of_mem m hm'))]
    refine congrArg some (mstate_congr (fun d _ => ?_))
    simp [List.append_assoc]

/-- The central characterization: on a medication list whose records all
carry a name, `generate_schedule` succeeds and returns `schedSpec`. -/
theorem generate_schedule_spec (today : Nat) (meds : List Med)
    (h : ∀ m ∈ meds, m.name.isSome) :
    generate_schedule today meds = some (schedSpec today meds) := by
  cases meds with
  | nil => rfl
  | cons m rest =>
    obtain ⟨nm, hnm⟩ := Option.isSome_iff_exists.mp (h m (List.mem_cons_self m rest))
    unfold generate_schedule
    rw [List.foldlM_cons]
    have h0 : addMed today [] m = some (mstate today (fun _ => entriesFor m)) :=
      addMed_empty today m hnm
    rw [h0]
    show List.foldlM (addMed today) _ rest = _
    rw [foldMeds_mstate today rest _ (fun m' hm' => h m' (List.mem_cons_of_mem m hm'))]
    refine congrArg some ?_
    unfold schedSpec mstate
    refine List.map_congr_left (fun d _ => ?_)
    simp

/-! ## Helper facts about the resolver -/

theorem keywordTimes_eq_nil_iff (timing : Str) :
    keywordTimes timing = [] ↔
      ¬ kwMorning <:+: timing ∧ ¬ kwLunch <:+: timing ∧ ¬ kwEvening <:+: timing ∧
      ¬ (kwBedtime <:+: timing ∨ kwBeforeSleep <:+: timing) := by
  unfold keywordTimes
  by_cases h1 : kwMorning <:+: timing <;> by_cases h2 : kwLunch <:+: timing <;>
    by_cases h3 : kwEvening <:+: timing <;>
    by_cases h4 : kwBedtime <:+: timing ∨ kwBeforeSleep <:+: timing <;>
    simp [h1, h2, h3, h4]

/-! ## Concrete medication records used in the claims -/

/-- The end-to-end scenario medication: `Amoxicillin`, timing
"morning, evening after meals" (아침, 저녁 식후), frequency
"2 times daily" (1일 2회). -/
def amox : Med :=
  { name := some ("Amoxicillin".toList), dosage := none,
    frequency := some ("1일 2회".toList), timing := some ("아침, 저녁 식후".toList),
    duration := none, warnings := none }

def amoxEntry (t : Str) : Entry := mkEntry ("Amoxicillin".toList) [] t

/-- A medication record whose dict lacks the `name` key. -/
def namelessMed : Med :=
  { name := none, dosage := none, frequency := none, timing := none,
    duration := none, warnings := none }

/-- A medication record carrying only a name: every `med.get` access is
defaulted. -/
def bareNamedMed : Med :=
  { name := some ("Aspirin".toList), dosage := none, frequency := none,
    timing := none, duration := none, warnings := none }

/-! ## Claims C1–C6, C9, C10 -/

/-- C1: for the medication (name Amoxicillin, timing "morning, evening
after meals" = 아침, 저녁 식후, frequency "2 times daily" = 1일 2회) the
resolver yields exactly 08:00 and 18:00, and the weekly schedule maps each
of the 7 days to exactly two Amoxicillin entries, one at 08:00 and one at
18:00, both with `taken = false`. -/
theorem amoxicillin_end_to_end (today : Nat) :
    resolveTimes (("아침, 저녁 식후".toList).map Char.toLower) ("1일 2회".toList)
      = [t0800, t1800] ∧
    generate_schedule today [amox]
      = some ((List.range 7).map
          (fun d => (today + d, [amoxEntry t0800, amoxEntry t1800]))) := by
  constructor
  · decide
  · rw [generate_schedule_spec today [amox] (by decide)]
    refine congrArg some ?_
    show schedSpec today [amox] = _
    unfold schedSpec
    refine List.map_congr_left (fun d _ => ?_)
    have : [amox].flatMap entriesFor = [amoxEntry t0800, amoxEntry t1800] := by decide
    rw [this]

/-- C2 counterexample: with an empty medication list `generate_schedule`
returns the empty dict — the `for day in range(7)` loop sits inside the
medication loop, so no date key is ever created; the result does not have
seven dates. -/
theorem empty_list_schedule_not_seven_dates :
    ¬ ∃ s, generate_schedule 0 [] = some s ∧ s.length = 7 := by
  rintro ⟨s, hs, hlen⟩
  have h0 : generate_schedule 0 [] = some [] := rfl
  rw [h0] at hs
  cases hs
  exact absurd hlen (by decide)

/-- C2 (amended): invoked with an empty medication list, the schedule
builder returns an empty mapping — no dates and hence no entries. -/
theorem generate_schedule_empty (today : Nat) :
    generate_schedule today [] = some [] := rfl

/-- C3 counterexample: a timing string containing the morning, lunch and
evening keywords but also a bedtime keyword (취침) resolves to four slots,
not to [08:00, 12:00, 18:00]. -/
theorem all_three_with_bedtime_counterexample :
    (kwMorning <:+: ("아침 점심 저녁 취침".toList) ∧
     kwLunch <:+: ("아침 점심 저녁 취침".toList) ∧
     kwEvening <:+: ("아침 점심 저녁 취침".toList)) ∧
    resolveTimes ("아침 점심 저녁 취침".toList) [] ≠ [t0800, t1200, t1800] := by
  constructor
  · exact ⟨by decide, by decide, by decide⟩
  · decide

/-- C3 (amended): for every timing string that contains the morning, lunch
and evening keywords and contains neither bedtime keyword (취침, 자기 전),
the resolver returns exactly [08:00, 12:00, 18:00] in that fixed order,
regardless of the order of the keywords in the string and regardless of
the frequency string. -/
theorem resolve_all_three_slots (timing frequency : Str)
    (hm : kwMorning <:+: timing) (hl : kwLunch <:+: timing)
    (he : kwEvening <:+: timing)
    (hb1 : ¬ kwBedtime <:+: timing) (hb2 : ¬ kwBeforeSleep <:+: timing) :
    resolveTimes timing frequency = [t0800, t1200, t1800] := by
  have hkt : keywordTimes timing = [t0800, t1200, t1800] := by
    unfold keywordTimes
    rw [if_pos hm, if_pos hl, if_pos he, if_neg (by tauto)]
    rfl
  unfold resolveTimes
  rw [hkt]
  rfl

/-- C3 witness: keywords in reversed textual order still yield the fixed
morning → lunch → evening output order. -/
theorem resolve_all_three_slots_witness :
    resolveTimes ("저녁, 점심, 아침 식후".toList) [] = [t0800, t1200, t1800] :=
  resolve_all_three_slots _ _ (by decide) (by decide) (by decide) (by decide) (by decide)

/-- C4: when the timing string yields no keyword match, the resolver falls
back to the frequency string, as a sequential chain: 3회 ("3 times") →
three slots; otherwise 2회 ("2 times") → two slots; otherwise the single
default slot 08:00. -/
theorem resolve_fallback (timing frequency : Str)
    (hm : ¬ kwMorning <:+: timing) (hl : ¬ kwLunch <:+: timing)
    (he : ¬ kwEvening <:+: timing)
    (hb1 : ¬ kwBedtime <:+: timing) (hb2 : ¬ kwBeforeSleep <:+: timing) :
    (kw3x <:+: frequency → resolveTimes timing frequency = [t0800, t1200, t1800]) ∧
    (¬ kw3x <:+: frequency → kw2x <:+: frequency →
      resolveTimes timing frequency = [t0800, t1800]) ∧
    (¬ kw3x <:+: frequency → ¬ kw2x <:+: frequency →
      resolveTimes timing frequency = [t0800]) := by
  have hkt : keywordTimes timing = [] :=
    (keywordTimes_eq_nil_iff timing).mpr ⟨hm, hl, he, by tauto⟩
  unfold resolveTimes
  rw [hkt]
  refine ⟨fun h3 => ?_, fun h3 h2 => ?_, fun h3 h2 => ?_⟩
  · rw [if_pos rfl, if_pos h3]
  · rw [if_pos rfl, if_neg h3, if_pos h2]
  · rw [if_pos rfl, if_neg h3, if_neg h2]

/-- C4 witness: the spec's own instance — empty timing and frequency
containing "3 times" (1일 3회) resolves to the three standard slots. -/
theorem resolve_fallback_witness :
    resolveTimes [] ("1일 3회".toList) = [t0800, t1200, t1800] :=
  (resolve_fallback [] _ (by decide) (by decide) (by decide) (by decide) (by decide)).1
    (by decide)

/-- C5: the resolver is total with no error path — it returns a non-empty
slot list on every input — and whenever the timing string yields at least
one keyword match the result is independent of the frequency string
(timing always wins). -/
theorem resolver_total_timing_wins (timing f₁ f₂ : Str) :
    resolveTimes timing f₁ ≠ [] ∧
    ((kwMorning <:+: timing ∨ kwLunch <:+: timing ∨ kwEvening <:+: timing ∨
      kwBedtime <:+: timing ∨ kwBeforeSleep <:+: timing) →
      resolveTimes timing f₁ = resolveTimes timing f₂) := by
  constructor
  · unfold resolveTimes
    by_cases hk : keywordTimes timing = []
    · rw [if_pos hk]
      by_cases h3 : kw3x <:+: f₁
      · rw [if_pos h3]; simp
      · rw [if_neg h3]
        by_cases h2 : kw2x <:+: f₁
        · rw [if_pos h2]; simp
        · rw [if_neg h2]; simp
    · rw [if_neg hk]; exact hk
  · intro h
    have hk : keywordTimes timing ≠ [] := by
      rw [Ne, keywordTimes_eq_nil_iff]
      tauto
    unfold resolveTimes
    rw [if_neg hk, if_neg hk]

/-- C5 witness: with a morning-only timing, conflicting frequency signals
(1일 3회 vs 1일 2회) are ignored. -/
theorem resolver_total_timing_wins_witness :
    resolveTimes ("아침".toList) ("1일 3회".toList)
      = resolveTimes ("아침".toList) ("1일 2회".toList) :=
  (resolver_total_timing_wins _ _ _).2 (Or.inl (by decide))

/-- C6: a single-medication list whose medication resolves to exactly two
time slots produces exactly 14 schedule entries (7 days × 2 slots), every
one of them with `taken = false`. -/
theorem single_med_fourteen_entries (today : Nat) (m : Med) (nm : Str)
    (hname : m.name = some nm)
    (h2 : (resolveTimes ((m.timing.getD []).map Char.toLower)
            (m.frequency.getD defaultFreq)).length = 2) :
    ∃ s, generate_schedule today [m] = some s ∧ totalEntries s = 14 ∧
      ∀ p ∈ s, ∀ e ∈ p.2, e.taken = false := by
  refine ⟨schedSpec today [m],
    generate_schedule_spec today [m] (by simp [hname]), ?_, ?_⟩
  · have hlen : ([m].flatMap entriesFor).length = 2 := by
      simp [entriesFor, h2]
    unfold totalEntries schedSpec
    simp only [List.map_map]
    rw [show ((fun p : Nat × List Entry => p.2.length) ∘
        fun d => (today + d, [m].flatMap entriesFor))
        = fun _ => ([m].flatMap entriesFor).length from rfl]
    rw [List.map_const', hlen]
    simp
  · intro p hp e he
    unfold schedSpec at hp
    obtain ⟨d, _, rfl⟩ := List.mem_map.mp hp
    obtain ⟨m', _, hm'⟩ := List.mem_flatMap.mp he
    obtain ⟨t, _, rfl⟩ := List.mem_map.mp hm'
    rfl

/-- C6 witness: a concrete bedtime + morning medication resolving to two
slots. -/
def twoSlotMed : Med :=
  { name := some ("Ibuprofen".toList), dosage := some ("200mg".toList),
    frequency := none, timing := some ("아침, 취침 전".toList),
    duration := none, warnings := none }

theorem single_med_fourteen_entries_witness :
    ∃ s, generate_schedule 0 [twoSlotMed] = some s ∧ totalEntries s = 14 ∧
      ∀ p ∈ s, ∀ e ∈ p.2, e.taken = false :=
  single_med_fourteen_entries 0 twoSlotMed ("Ibuprofen".toList) rfl (by decide)

/-- Lookup with `find?` on the mapped day keys returns the requested day. -/
theorem find?_day_key (today : Nat) (L : List Entry) :
    ∀ (ds : List Nat) (d : Nat), d ∈ ds →
      ((ds.map (fun e => (today + e, L))).find? (fun p => p.1 == today + d))
        = some (today + d, L) := by
  intro ds
  induction ds with
  | nil => intro d hd; cases hd
  | cons e ds ih =>
    intro d hd
    by_cases hed : e = d
    · subst hed
      simp only [List.map_cons]
      exact List.find?_cons_of_pos _ (by simp)
    · simp only [List.map_cons]
      rw [List.find?_cons_of_neg]
      · rcases List.mem_cons.mp hd with h | h
        · exact absurd h.symm hed
        · exact ih d h
      · simp only [beq_iff_eq]
        omega

/-- C9: for every medication list (all records named, as the data model
requires) and every day of the 7-day window, the day's entry list is
exactly the concatenation, in list order, of each medication's resolved
time-slot entries — `entriesFor` per medication, with no deduplication
across medications: the total length is the sum of the individual
contributions. -/
theorem schedule_day_entries_exact (today : Nat) (meds : List Med) (d : Nat)
    (hnames : ∀ m ∈ meds, m.name.isSome) (hne : meds ≠ []) (hd : d < 7) :
    schedLookup (generate_schedule today meds) (today + d)
      = some (meds.flatMap entriesFor) ∧
    (meds.flatMap entriesFor).length
      = (meds.map (fun m => (entriesFor m).length)).sum := by
  constructor
  · rw [generate_schedule_spec today meds hnames]
    cases meds with
    | nil => exact absurd rfl hne
    | cons m rest =>
      unfold schedLookup schedSpec
      simp only [Option.bind_eq_bind, Option.some_bind]
      rw [find?_day_key today _ (List.range 7) d (List.mem_range.mpr hd)]
      rfl
  · rw [List.length_flatMap]
    rfl

/-- C9 witness: two different medications both resolving to the single
default slot 08:00 each contribute their own 08:00 entry on day 3. -/
def medA : Med :=
  { name := some ("DrugA".toList), dosage := none, frequency := none,
    timing := none, duration := none, warnings := none }

def medB : Med :=
  { name := some ("DrugB".toList), dosage := none, frequency := none,
    timing := none, duration := none, warnings := none }

theorem schedule_day_entries_exact_witness :
    schedLookup (generate_schedule 0 [medA, medB]) 3
      = some [mkEntry ("DrugA".toList) [] t0800, mkEntry ("DrugB".toList) [] t0800] :=
  ((schedule_day_entries_exact 0 [medA, medB] 3 (by decide) (by decide)
    (by decide)).1).trans (by decide)

/-- C10 (implicit): `generate_schedule` requires only the `name` key — it
succeeds on every list whose records all carry a name, defaulting the
other fields — while a record without a `name` key makes it fail with a
lookup error (the `KeyError` of `med['name']`, embedded as `none`)
instead of returning a schedule. -/
theorem schedule_requires_name_key :
    (∀ (today : Nat) (meds : List Med), (∀ m ∈ meds, m.name.isSome) →
      (generate_schedule today meds).isSome = true) ∧
    generate_schedule 0 [namelessMed] = none := by
  constructor
  · intro today meds h
    rw [generate_schedule_spec today meds h]
    rfl
  · rfl

/-- C10 witness: a list whose single record has only a name succeeds. -/
theorem schedule_requires_name_key_witness :
    (generate_schedule 0 [bareNamedMed]).isSome = true :=
  schedule_requires_name_key.1 0 [bareNamedMed] (by decide)

/-! ## Response parser (`analyze_prescription`, app.py lines 59–67)

`str.split(sep)` with a non-empty separator splits on the left-to-right
non-overlapping occurrences of `sep`; `str.strip()` removes leading and
trailing whitespace.  Both are embedded below.  `json.loads` itself is a
third-party parser, kept abstract as a function argument `J` wherever
possible; `jsonLoadsNum` models it on the inputs the concrete
counterexample feeds it. -/

/-- The whitespace characters `str.strip` removes. -/
def isPyWS (c : Char) : Bool :=
  c == ' ' || c == '\t' || c == '\n' || c == '\r' || c == '\x0b' || c == '\x0c'

/-- Python `str.strip()`. -/
def pyStrip (l : Str) : Str :=
  ((l.dropWhile isPyWS).reverse.dropWhile isPyWS).reverse

/-- Worker for `str.split(sep)`: scans left to right, `acc` holding the
reversed current segment.  `fuel` only forces structural recursion; it is
called with `fuel = l.length`, which a matched separator (length ≥ 1 for
the separators of the source) never exhausts. -/
def splitOnSubAux (sep : Str) : Nat → Str → Str → List Str
  | _, acc, [] => [acc.reverse]
  | 0, acc, l => [acc.reverse ++ l]
  | fuel + 1, acc, c :: rest =>
    if sep <+: (c :: rest) then
      acc.reverse :: splitOnSubAux sep fuel [] (rest.drop (sep.length - 1))
    else
      splitOnSubAux sep fuel (c :: acc) rest

/-- Python `l.split(sep)` for a non-empty separator. -/
def pySplit (sep l : Str) : List Str := splitOnSubAux sep l.length [] l

def fence3 : Str := "```".toList

def fenceJson : Str := "```json".toList

/-- The fenced-code-block stripping of `analyze_prescription`
(app.py lines 61–64): `split("```json")[1].split("```")[0]` when the
response contains the json marker, else `split("```")[1].split("```")[0]`
when it contains a bare fence, else the response unchanged.  The guarded
index 1 always exists inside its branch, so `getD` is faithful. -/
def extractFenced (r : Str) : Str :=
  if fenceJson <:+: r then
    (pySplit fence3 ((pySplit fenceJson r).getD 1 [])).getD 0 []
  else if fence3 <:+: r then
    (pySplit fence3 ((pySplit fence3 r).getD 1 [])).getD 0 []
  else r

/-- Lines 59–66 up to `json.loads(response_text.strip())`, with the loads
function abstracted. -/
def parsePayload {α : Type} (J : Str → α) (r : Str) : α :=
  J (pyStrip (extractFenced r))

/-- The leading-marker fenced block wrapping a payload. -/
def wrapJson (p : Str) : Str := fenceJson ++ '\n' :: (p ++ '\n' :: fence3)

/-- The bare fenced block wrapping a payload. -/
def wrapBare (p : Str) : Str := fence3 ++ '\n' :: (p ++ '\n' :: fence3)

/-- Models `json.loads` on the fragment the C7 counterexample exercises: a
non-empty all-digit string parses as the integer it denotes; any other
string fails to parse (raises, i.e. `none`).  It agrees with `json.loads`
on every input it is applied to in this file. -/
def jsonLoadsNum (l : Str) : Option Nat :=
  if l ≠ [] ∧ l.all Char.isDigit then
    some (l.foldl (fun n c => n * 10 + (c.toNat - 48)) 0)
  else none

/-! ## Registration handler (app.py lines 224–233) -/

/-- The shape of a parsed analysis result: a dict that may or may not
carry the `medications` key; `otherKeys` counts its remaining top-level
keys, which only matters for Python truthiness of the dict. -/
structure Analyzed where
  medications : Option (List Med)
  otherKeys : Nat
deriving DecidableEq, Repr

/-- Python truthiness of the parsed dict (`if result and ...`): a dict is
truthy iff non-empty. -/
def truthy (a : Analyzed) : Bool := a.medications.isSome || a.otherKeys != 0

/-- The `약 등록` button handler stripped to its state effect
(app.py lines 226–233): on `result and 'medications' in result` the
stored list is replaced and success is reported, otherwise an error is
reported and the list is untouched.  Returns the new stored list and the
success flag. -/
def registerHandler : Option Analyzed → List Med → List Med × Bool
  | none, meds => (meds, false)
  | some a, meds =>
    if truthy a && a.medications.isSome then (a.medications.getD [], true)
    else (meds, false)

/-- C8: for every response text whose analysis fails to produce the
expected structure — the parse raises (`none`, covering non-JSON text) or
the parsed result lacks the `medications` field — the handler reports
failure and leaves the stored medication list exactly as it was. -/
theorem parse_failure_no_mutation (J : Str → Option Analyzed) (r : Str)
    (meds : List Med)
    (h : ∀ a ∈ parsePayload J r, a.medications = none) :
    registerHandler (parsePayload J r) meds = (meds, false) := by
  cases hp : parsePayload J r with
  | none => rfl
  | some a =>
    have ha : a.medications = none := h a (by rw [hp]; rfl)
    simp [registerHandler, truthy, ha]

/-- C8 witness: a non-JSON response (the loads stage fails) leaves a
concrete stored list unchanged and reports failure. -/
theorem parse_failure_no_mutation_witness :
    registerHandler (parsePayload (fun _ => none) ("I cannot read this image".toList))
      [bareNamedMed] = ([bareNamedMed], false) :=
  parse_failure_no_mutation (fun _ => none) _ [bareNamedMed]
    (fun _ ha => Option.noConfusion ha)

/-! ## Structure of `pySplit` on fenced strings -/

theorem fence3_eq : fence3 = ['`', '`', '`'] := rfl

theorem fenceJson_eq : fenceJson = ['`', '`', '`', 'j', 's', 'o', 'n'] := rfl

/-- The fuel of `splitOnSubAux` is irrelevant as long as it covers the
length of the scanned list. -/
theorem splitOnSubAux_fuel (sep : Str) :
    ∀ (f g : Nat) (acc l : Str), l.length ≤ f → l.length ≤ g →
      splitOnSubAux sep f acc l = splitOnSubAux sep g acc l := by
  intro f
  induction f with
  | zero =>
    intro g acc l hf _
    have hl : l = [] := List.length_eq_zero.mp (Nat.le_zero.mp hf)
    subst hl
    cases g <;> rfl
  | succ f ihf =>
    intro g acc l hf hg
    cases l with
    | nil => cases g <;> rfl
    | cons c rest =>
      cases g with
      | zero => simp at hg
      | succ g =>
        simp only [splitOnSubAux]
        by_cases hp : sep <+: (c :: rest)
        · rw [if_pos hp, if_pos hp]
          congr 1
          have h1 : (rest.drop (sep.length - 1)).length ≤ f := by
            simp only [List.length_drop]
            simp only [List.length_cons] at hf
            omega
          have h2 : (rest.drop (sep.length - 1)).length ≤ g := by
            simp only [List.length_drop]
            simp only [List.length_cons] at hg
            omega
          exact ihf g [] _ h1 h2
        · rw [if_neg hp, if_neg hp]
          refine ihf g (c :: acc) rest ?_ ?_ <;> simp_all

/-- When the separator occurs nowhere, `splitOnSubAux` returns the single
segment. -/
theorem splitOnSubAux_no_occ (sep : Str) :
    ∀ (fuel : Nat) (acc l : Str), l.length ≤ fuel → ¬ sep <:+: l →
      splitOnSubAux sep fuel acc l = [acc.reverse ++ l] := by
  intro fuel
  induction fuel with
  | zero =>
    intro acc l hf _
    have hl : l = [] := List.length_eq_zero.mp (Nat.le_zero.mp hf)
    subst hl
    simp [splitOnSubAux]
  | succ f ih =>
    intro acc l hf hinf
    cases l with
    | nil => simp [splitOnSubAux]
    | cons c rest =>
      have hp : ¬ sep <+: (c :: rest) := fun h => hinf h.isInfix
      simp only [splitOnSubAux, if_neg hp]
      rw [ih (c :: acc) rest (by simp at hf; omega)
        (fun h => hinf (List.infix_cons h))]
      simp

/-- A separator occurrence at the head of the scanned list closes the
current segment and continues after the separator. -/
theorem splitOnSubAux_match (s₀ : Char) (sep' : Str) :
    ∀ (fuel : Nat) (acc ys : Str), ((s₀ :: sep') ++ ys).length ≤ fuel →
      splitOnSubAux (s₀ :: sep') fuel acc ((s₀ :: sep') ++ ys)
        = acc.reverse :: splitOnSubAux (s₀ :: sep') ys.length [] ys := by
  intro fuel acc ys hf
  cases fuel with
  | zero => simp at hf
  | succ f =>
    show splitOnSubAux (s₀ :: sep') (f + 1) acc (s₀ :: (sep' ++ ys)) = _
    simp only [splitOnSubAux]
    rw [if_pos (show (s₀ :: sep') <+: s₀ :: (sep' ++ ys) from
      List.prefix_append (s₀ :: sep') ys)]
    congr 1
    have hdrop : (sep' ++ ys).drop ((s₀ :: sep').length - 1) = ys := by
      simp only [List.length_cons, Nat.add_sub_cancel]
      exact List.drop_left sep' ys
    rw [hdrop]
    refine splitOnSubAux_fuel _ f ys.length [] ys ?_ (le_refl _)
    simp at hf
    omega

/-- Scanning past a separator-free region accumulates it unchanged.  The
hypothesis also excludes occurrences straddling the boundary: any
occurrence starting inside `xs` lies within `xs ++ ys.take (sep.length - 1)`. -/
theorem splitOnSubAux_skip (sep : Str) :
    ∀ (xs : Str) (fuel : Nat) (acc ys : Str), (xs ++ ys).length ≤ fuel →
      ¬ sep <:+: (xs ++ ys.take (sep.length - 1)) →
      splitOnSubAux sep fuel acc (xs ++ ys)
        = splitOnSubAux sep ys.length (xs.reverse ++ acc) ys := by
  intro xs
  induction xs with
  | nil =>
    intro fuel acc ys hf _
    simp only [List.nil_append, List.reverse_nil]
    exact splitOnSubAux_fuel sep fuel ys.length acc ys (by simpa using hf) (le_refl _)
  | cons c xs' ih =>
    intro fuel acc ys hf hocc
    cases fuel with
    | zero => simp at hf
    | succ f =>
      have hp : ¬ sep <+: ((c :: xs') ++ ys) := by
        intro hpre
        apply hocc
        have htake : ((c :: xs') ++ ys).take sep.length
            = ((c :: xs') ++ ys.take (sep.length - 1)).take sep.length := by
          rw [List.take_append_eq_append_take, List.take_append_eq_append_take,
            List.take_take]
          have : min (sep.length - (c :: xs').length) (sep.length - 1)
              = sep.length - (c :: xs').length := by
            simp only [List.length_cons]
            omega
          rw [this]
        have hpre2 : sep <+: ((c :: xs') ++ ys.take (sep.length - 1)) := by
          rw [List.prefix_iff_eq_take]
          calc sep = ((c :: xs') ++ ys).take sep.length :=
                List.prefix_iff_eq_take.mp hpre
            _ = ((c :: xs') ++ ys.take (sep.length - 1)).take sep.length := htake
        exact hpre2.isInfix
      show splitOnSubAux sep (f + 1) acc (c :: (xs' ++ ys)) = _
      simp only [splitOnSubAux, if_neg (by simpa using hp)]
      rw [ih f (c :: acc) ys (by simp at hf ⊢; omega)
        (fun h => hocc (List.infix_cons h))]
      congr 1
      simp

/-- No occurrence of a fence-led separator can straddle a fence-free
region and a following newline: the three leading backticks would have to
fit before the newline (giving a fence inside `p`) or cover it. -/
theorem no_fence_occ (sep w : Str) (hsep : fence3 <+: sep)
    (hw : ¬ sep <:+: ('\n' :: w)) :
    ∀ (p : Str), ¬ fence3 <:+: p → ¬ sep <:+: (p ++ '\n' :: w) := by
  intro p
  induction p with
  | nil => intro _; simpa using hw
  | cons c p' ih =>
    intro hp hinf
    have hp' : ¬ fence3 <:+: p' := fun h => hp (List.infix_cons h)
    rw [List.cons_append] at hinf
    rcases List.infix_cons_iff.mp hinf with hpre | htail
    · have h3 : fence3 <+: c :: (p' ++ '\n' :: w) := hsep.trans hpre
      match p' with
      | [] =>
        rw [fence3_eq] at h3
        simp only [List.nil_append, List.cons_prefix_cons] at h3
        exact absurd h3.2.1 (by decide)
      | [d] =>
        rw [fence3_eq] at h3
        simp only [List.cons_append, List.nil_append, List.cons_prefix_cons] at h3
        exact absurd h3.2.2.1 (by decide)
      | d :: e :: p'' =>
        rw [fence3_eq] at h3
        simp only [List.cons_append, List.cons_prefix_cons] at h3
        obtain ⟨hc, hd, he, -⟩ := h3
        subst hc
        subst hd
        subst he
        exact hp (List.IsPrefix.isInfix ⟨p'', by rw [fence3_eq]; rfl⟩)
    · exact ih hp' htail

theorem fence_not_prefix_nl (sep l : Str) (hsep : fence3 <+: sep) :
    ¬ sep <+: ('\n' :: l) := by
  intro h
  have h3 : fence3 <+: ('\n' :: l) := hsep.trans h
  rw [fence3_eq, List.cons_prefix_cons] at h3
  exact absurd h3.1 (by decide)

theorem fence_not_infix_nl (sep l : Str) (hsep : fence3 <+: sep)
    (h : ¬ sep <:+: l) : ¬ sep <:+: ('\n' :: l) := by
  intro hinf
  rcases List.infix_cons_iff.mp hinf with hpre | ht
  · exact fence_not_prefix_nl sep l hsep hpre
  · exact h ht

/-- Stripping a payload wrapped between newlines equals stripping the
payload. -/
theorem pyStrip_wrap (p : Str) : pyStrip ('\n' :: (p ++ ['\n'])) = pyStrip p := by
  unfold pyStrip
  rw [List.dropWhile_cons_of_pos (by decide : isPyWS '\n' = true)]
  rw [List.dropWhile_append]
  by_cases hE : (p.dropWhile isPyWS).isEmpty
  · rw [if_pos hE]
    rw [List.isEmpty_iff.mp hE]
    rfl
  · rw [if_neg hE]
    rw [List.reverse_append]
    show ((('\n' :: (p.dropWhile isPyWS).reverse)).dropWhile isPyWS).reverse = _
    rw [List.dropWhile_cons_of_pos (by decide : isPyWS '\n' = true)]

theorem splitOnSubAux_match_end (s₀ : Char) (sep' : Str) :
    ∀ (fuel : Nat) (acc : Str), (s₀ :: sep').length ≤ fuel →
      splitOnSubAux (s₀ :: sep') fuel acc (s₀ :: sep') = [acc.reverse, []] := by
  intro fuel acc hf
  have h := splitOnSubAux_match s₀ sep' fuel acc [] (by simpa using hf)
  rw [List.append_nil] at h
  rw [h]
  rfl

/-- A separator at the very front contributes an empty first segment. -/
theorem pySplit_at_head (sep ys : Str) (hs : sep ≠ []) :
    pySplit sep (sep ++ ys) = [] :: pySplit sep ys := by
  obtain ⟨s₀, sep', rfl⟩ := List.exists_cons_of_ne_nil hs
  unfold pySplit
  rw [splitOnSubAux_match s₀ sep' _ [] ys (le_refl _)]
  rfl

/-- A string free of the separator is a single segment. -/
theorem pySplit_no_occ (sep l : Str) (h : ¬ sep <:+: l) : pySplit sep l = [l] := by
  unfold pySplit
  rw [splitOnSubAux_no_occ sep l.length [] l (le_refl _) h]
  simp

/-- A string that ends in its only separator occurrence splits into the
front segment and an empty tail segment. -/
theorem pySplit_end_sep (sep xs : Str) (hs : sep ≠ [])
    (hocc : ¬ sep <:+: (xs ++ sep.take (sep.length - 1))) :
    pySplit sep (xs ++ sep) = [xs, []] := by
  obtain ⟨s₀, sep', rfl⟩ := List.exists_cons_of_ne_nil hs
  unfold pySplit
  rw [splitOnSubAux_skip (s₀ :: sep') xs _ [] (s₀ :: sep') (le_refl _) hocc]
  rw [splitOnSubAux_match_end s₀ sep' _ _ (le_refl _)]
  simp

theorem fence3_prefix_fenceJson : fence3 <+: fenceJson := by decide

/-! ## The extraction on plain and wrapped payloads -/

theorem extractFenced_plain (p : Str) (hp : ¬ fence3 <:+: p) :
    extractFenced p = p := by
  have hpj : ¬ fenceJson <:+: p :=
    fun h => hp (fence3_prefix_fenceJson.isInfix.trans h)
  unfold extractFenced
  rw [if_neg hpj, if_neg hp]

theorem extractFenced_wrapJson (p : Str) (hp : ¬ fence3 <:+: p) :
    extractFenced (wrapJson p) = '\n' :: (p ++ ['\n']) := by
  have hAj : ¬ fenceJson <:+: (p ++ '\n' :: fence3) :=
    no_fence_occ fenceJson fence3 fence3_prefix_fenceJson (by decide) p hp
  have htj : ¬ fenceJson <:+: ('\n' :: (p ++ '\n' :: fence3)) :=
    fence_not_infix_nl _ _ fence3_prefix_fenceJson hAj
  have hocc2 : ¬ fence3 <:+: (('\n' :: (p ++ ['\n'])) ++ fence3.take (fence3.length - 1)) := by
    have hsh : ('\n' :: (p ++ ['\n'])) ++ fence3.take (fence3.length - 1)
        = '\n' :: (p ++ '\n' :: ['`', '`']) := by
      rw [show fence3.take (fence3.length - 1) = ['`', '`'] from rfl]
      simp
    rw [hsh]
    exact fence_not_infix_nl fence3 _ (List.prefix_refl _)
      (no_fence_occ fence3 ['`', '`'] (List.prefix_refl _) (by decide) p hp)
  have hbranch : fenceJson <:+: wrapJson p := by
    unfold wrapJson
    exact (List.prefix_append _ _).isInfix
  have hsplit1 : pySplit fenceJson (wrapJson p)
      = [[], '\n' :: (p ++ '\n' :: fence3)] := by
    unfold wrapJson
    rw [pySplit_at_head fenceJson _ (by decide)]
    rw [pySplit_no_occ _ _ htj]
  have hsplit2 : pySplit fence3 ('\n' :: (p ++ '\n' :: fence3))
      = ['\n' :: (p ++ ['\n']), []] := by
    have hsh : '\n' :: (p ++ '\n' :: fence3) = ('\n' :: (p ++ ['\n'])) ++ fence3 := by
      simp
    rw [hsh]
    exact pySplit_end_sep fence3 _ (by decide) hocc2
  unfold extractFenced
  rw [if_pos hbranch, hsplit1]
  show (pySplit fence3 ('\n' :: (p ++ '\n' :: fence3))).getD 0 [] = _
  rw [hsplit2]
  rfl

theorem extractFenced_wrapBare (p : Str) (hp : ¬ fence3 <:+: p) :
    extractFenced (wrapBare p) = '\n' :: (p ++ ['\n']) := by
  have hAj : ¬ fenceJson <:+: (p ++ '\n' :: fence3) :=
    no_fence_occ fenceJson fence3 fence3_prefix_fenceJson (by decide) p hp
  have htj : ¬ fenceJson <:+: ('\n' :: (p ++ '\n' :: fence3)) :=
    fence_not_infix_nl _ _ fence3_prefix_fenceJson hAj
  have hnj : ¬ fenceJson <:+: wrapBare p := by
    show ¬ fenceJson <:+: ('`' :: '`' :: '`' :: ('\n' :: (p ++ '\n' :: fence3)))
    intro h
    rcases List.infix_cons_iff.mp h with h1 | h
    · rw [fenceJson_eq] at h1
      simp only [List.cons_prefix_cons] at h1
      exact absurd h1.2.2.2.1 (by decide)
    rcases List.infix_cons_iff.mp h with h1 | h
    · rw [fenceJson_eq] at h1
      simp only [List.cons_prefix_cons] at h1
      exact absurd h1.2.2.1 (by decide)
    rcases List.infix_cons_iff.mp h with h1 | h
    · rw [fenceJson_eq] at h1
      simp only [List.cons_prefix_cons] at h1
      exact absurd h1.2.1 (by decide)
    · exact htj h
  have hb : fence3 <:+: wrapBare p := by
    unfold wrapBare
    exact (List.prefix_append _ _).isInfix
  have hocc3 : ¬ fence3 <:+: ('\n' :: (p ++ ['\n'])) :=
    fence_not_infix_nl fence3 _ (List.prefix_refl _)
      (no_fence_occ fence3 [] (List.prefix_refl _) (by decide) p hp)
  have hocc2 : ¬ fence3 <:+: (('\n' :: (p ++ ['\n'])) ++ fence3.take (fence3.length - 1)) := by
    have hsh : ('\n' :: (p ++ ['\n'])) ++ fence3.take (fence3.length - 1)
        = '\n' :: (p ++ '\n' :: ['`', '`']) := by
      rw [show fence3.take (fence3.length - 1) = ['`', '`'] from rfl]
      simp
    rw [hsh]
    exact fence_not_infix_nl fence3 _ (List.prefix_refl _)
      (no_fence_occ fence3 ['`', '`'] (List.prefix_refl _) (by decide) p hp)
  have hsplit1 : pySplit fence3 (wrapBare p)
      = [[], '\n' :: (p ++ ['\n']), []] := by
    unfold wrapBare
    rw [pySplit_at_head fence3 _ (by decide)]
    have hsh : '\n' :: (p ++ '\n' :: fence3) = ('\n' :: (p ++ ['\n'])) ++ fence3 := by
      simp
    rw [hsh, pySplit_end_sep fence3 _ (by decide) hocc2]
  unfold extractFenced
  rw [if_neg hnj, if_pos hb, hsplit1]
  show (pySplit fence3 ('\n' :: (p ++ ['\n']))).getD 0 [] = _
  rw [pySplit_no_occ _ _ hocc3]
  rfl

/-- C7 (amended): for every payload string that does not contain the fence
marker (three consecutive backticks), the parser applied to the payload
wrapped in a fenced code block — the leading-marker variant or the bare
variant — produces the same parsed result as the parser applied to the
unwrapped payload, whatever loads function is used. -/
theorem fenced_wrap_parse_identical (α : Type) (J : Str → α) (p : Str)
    (hp : ¬ fence3 <:+: p) :
    parsePayload J (wrapJson p) = parsePayload J p ∧
    parsePayload J (wrapBare p) = parsePayload J p := by
  have e1 : extractFenced p = p := extractFenced_plain p hp
  have e2 := extractFenced_wrapJson p hp
  have e3 := extractFenced_wrapBare p hp
  unfold parsePayload
  rw [e1, e2, e3, pyStrip_wrap]
  exact ⟨rfl, rfl⟩

/-- C7 witness: a digit payload round-trips through both fenced wrappers. -/
theorem fenced_wrap_parse_identical_witness :
    parsePayload jsonLoadsNum (wrapJson ("123".toList))
        = parsePayload jsonLoadsNum ("123".toList) ∧
    parsePayload jsonLoadsNum (wrapBare ("123".toList))
        = parsePayload jsonLoadsNum ("123".toList) :=
  fenced_wrap_parse_identical (Option Nat) jsonLoadsNum ("123".toList) (by decide)

/-- C7 counterexample: the JSON payload `["x```json 5 ```"]` — a valid
JSON array whose string element contains a fence marker — parses to `5`
unwrapped (the extraction fires on the payload's own marker) but fails to
parse when wrapped in the leading-marker fenced block, so wrapping does
not parse identically for every payload. -/
theorem fenced_wrap_parse_counterexample :
    parsePayload jsonLoadsNum ("[\"x```json 5 ```\"]".toList) = some 5 ∧
    parsePayload jsonLoadsNum (wrapJson ("[\"x```json 5 ```\"]".toList)) = none ∧
    parsePayload jsonLoadsNum (wrapJson ("[\"x```json 5 ```\"]".toList))
      ≠ parsePayload jsonLoadsNum ("[\"x```json 5 ```\"]".toList) := by
  refine ⟨by decide, by decide, by decide⟩
